import Mathlib

/-!
Verification development for the space-restoration engine in `solution.py`
(class `SpaceRestorer`).  Texts are modelled as `List Char`, the frequency
dictionary as a function `List Char → Option ℤ`, and float scores as exact
rationals.  The natural logarithm `math.log(freq + 1)` is modelled by an
abstract parameter `lg : ℤ → ℚ` (every statement below is proved for all
`lg`, hence in particular for the values actually produced by `math.log`).
Unicode character classes (`str.isalpha`, `str.lower`, `str.strip`) are
modelled on the character ranges relevant to the program: ASCII letters and
digits, the Cyrillic block used by the source, and the Armenian lowercase
letters that appear in concrete evaluations.
-/

abbrev Word := List Char

/-- Model of `str.lower` for the character ranges of interest:
ASCII `A`-`Z`, Cyrillic `А`-`Я` (U+0410..U+042F, lowercased by adding 32)
and `Ё` (U+0401 → U+0451); all other characters are unchanged. -/
def pyToLower (c : Char) : Char :=
  if 65 ≤ c.toNat ∧ c.toNat ≤ 90 then Char.ofNat (c.toNat + 32)
  else if 1040 ≤ c.toNat ∧ c.toNat ≤ 1071 then Char.ofNat (c.toNat + 32)
  else if c.toNat = 1025 then Char.ofNat 1105
  else c

/-- Characters stripped by `str.strip`: space, tab, newline, carriage
return, vertical tab, form feed. -/
def pyIsSpace (c : Char) : Bool :=
  c.toNat = 32 ∨ c.toNat = 9 ∨ c.toNat = 10 ∨ c.toNat = 13 ∨
    c.toNat = 11 ∨ c.toNat = 12

/-- Model of `str.strip`: drop leading and trailing whitespace. -/
def pyStrip (w : Word) : Word :=
  ((w.dropWhile pyIsSpace).reverse.dropWhile pyIsSpace).reverse

/-- Model of `str.isalpha` on a single character, for the ranges relevant
here: ASCII letters, Cyrillic letters `А`-`я` plus `Ё`/`ё`
(U+0400-block letters U+0410..U+044F, U+0401, U+0451), and Armenian
letters (U+0531..U+0556, U+0561..U+0586). -/
def pyIsAlpha (c : Char) : Bool :=
  (65 ≤ c.toNat ∧ c.toNat ≤ 90) ∨ (97 ≤ c.toNat ∧ c.toNat ≤ 122) ∨
    (1040 ≤ c.toNat ∧ c.toNat ≤ 1103) ∨ c.toNat = 1025 ∨ c.toNat = 1105 ∨
    (1329 ≤ c.toNat ∧ c.toNat ≤ 1366) ∨ (1377 ≤ c.toNat ∧ c.toNat ≤ 1414)

/-- Model of `str.isalpha` on a whole string: nonempty and all characters
alphabetic. -/
def pyIsAlphaWord (w : Word) : Bool :=
  !w.isEmpty && w.all pyIsAlpha

/-- The Cyrillic alphabet string used by `_is_cyrillic_word` and
`get_word_score`. -/
def cyrillicChars : Word := "абвгдеёжзийклмнопрстуфхцчшщъыьэюя".toList

/-- Model of `_is_cyrillic_word`: the lowercased word contains at least one
character of the Cyrillic alphabet string. -/
def is_cyrillic_word (w : Word) : Bool :=
  (w.map pyToLower).any (fun c => cyrillicChars.contains c)

/-- Vowel set of `looks_like_russian_word`. -/
def vowelsRu : Word := "аеёиоуыэюя".toList

/-- Consonant set of `looks_like_russian_word`. -/
def consonantsRu : Word := "бвгджзйклмнпрстфхцчшщ".toList

/-- The consecutive-consonant check of `looks_like_russian_word`: walking
the word with a running streak counter, fail as soon as five consonants
in a row are seen. -/
def consStreakOk : ℕ → Word → Bool
  | _, [] => true
  | k, c :: cs =>
    if consonantsRu.contains c then
      if 4 < k + 1 then false else consStreakOk (k + 1) cs
    else consStreakOk 0 cs

/-- Model of `looks_like_russian_word`: length at least 2; every character of the
lowercased word alphabetic with code point at least 1040; at least one
vowel and one consonant; no run of more than 4 consonants. -/
def looks_like_russian_word (w : Word) : Bool :=
  if w.length < 2 then false
  else
    let lw := w.map pyToLower
    if !lw.all (fun c => pyIsAlpha c && decide (1040 ≤ c.toNat)) then false
    else
      let vc := lw.countP (fun c => vowelsRu.contains c)
      let cc := lw.countP (fun c => consonantsRu.contains c)
      if vc = 0 ∨ cc = 0 then false
      else consStreakOk 0 lw

/-- The `good_endings` table of `_get_ending_bonus`, in Python dict
insertion order.  The source dict literal repeats the keys `ая`, `ое`,
`ые` (same value), `им` (1.5 then 1.8) and `ую` (1.5 then 1.8); a Python
dict literal keeps the first position and the last value, which is what
this list records. -/
def goodEndings : List (Word × ℚ) :=
  [("ом".toList, 2), ("ой".toList, 2), ("ий".toList, 2), ("ая".toList, 2),
   ("ое".toList, 2), ("ые".toList, 2),
   ("ам".toList, 3/2), ("ах".toList, 3/2), ("ми".toList, 3/2),
   ("ов".toList, 3/2), ("ев".toList, 3/2), ("ей".toList, 3/2),
   ("ку".toList, 9/5), ("ту".toList, 9/5), ("ну".toList, 9/5),
   ("ру".toList, 9/5), ("лю".toList, 9/5), ("шу".toList, 9/5),
   ("ие".toList, 3/2), ("ее".toList, 3/2), ("ём".toList, 3/2),
   ("их".toList, 3/2), ("им".toList, 9/5), ("ую".toList, 9/5),
   ("ть".toList, 3), ("ся".toList, 5/2), ("ет".toList, 2),
   ("ит".toList, 2), ("ат".toList, 2), ("ят".toList, 2),
   ("ем".toList, 9/5), ("ют".toList, 9/5), ("ут".toList, 9/5),
   ("ал".toList, 3/2), ("ил".toList, 3/2),
   ("ый".toList, 2), ("ых".toList, 3/2), ("ым".toList, 3/2),
   ("ому".toList, 9/5), ("ему".toList, 9/5), ("юю".toList, 9/5)]

/-- Model of `_get_ending_bonus`: 0 for words shorter than 3, else the value of the
first table entry the word ends with, else 0. -/
def get_ending_bonus (w : Word) : ℚ :=
  if w.length < 3 then 0
  else
    match goodEndings.find? (fun e => e.1.isSuffixOf w) with
    | some e => e.2
    | none => 0

/-- The frequency dictionary `self.word_freq`. -/
abbrev Lexicon := Word → Option ℤ

def lexEmpty : Lexicon := fun _ => none

/-- Length bonus for dictionary words in
`dynamic_programming_segmentation`, translated from the descending
`if`/`elif` chain of the source. -/
def dpKnownLengthBonus (L : ℕ) : ℚ :=
  if 7 ≤ L then 25 + ((L : ℚ) - 7) * 3
  else if L = 6 then 20
  else if L = 5 then 15
  else if L = 4 then 10
  else if L = 3 then 5
  else if L = 2 then 0
  else -30

/-- Length bonus for unknown plausible words in
`dynamic_programming_segmentation`, including the over-length reduction
for words longer than 12. -/
def dpUnknownLengthBonus (L : ℕ) : ℚ :=
  let b : ℚ :=
    if 7 ≤ L then 8 + ((L : ℚ) - 7) * (3/2)
    else if L = 6 then 6
    else if L = 5 then 4
    else if L = 4 then 2
    else 0
  if 12 < L then b - ((L : ℚ) - 12) * 2 else b

/-- Penalty for implausible or short unknown words in
`dynamic_programming_segmentation`. -/
def dpImplausiblePenalty (L : ℕ) : ℚ :=
  if L = 1 then -35
  else if L = 2 then -25
  else -15 - (L : ℚ) * 3

/-- The per-candidate word score of `dynamic_programming_segmentation`:
dictionary words get `lg freq + length bonus`, unknown plausible words of
length at least 3 get `8 + ending bonus + second length bonus`, everything
else gets the penalty. -/
def dpWordScore (lg : ℤ → ℚ) (freq : Lexicon) (w : Word) : ℚ :=
  match freq (w.map pyToLower) with
  | some f => lg f + dpKnownLengthBonus w.length
  | none =>
    if 3 ≤ w.length ∧ looks_like_russian_word w then
      8 + get_ending_bonus w + dpUnknownLengthBonus w.length
    else dpImplausiblePenalty w.length

/-- The candidate-start scan of `dynamic_programming_segmentation` for one
position `i`: fold over the starts `max(0, i - 20), ..., i - 1` in
ascending order, keeping `(best_score, best_start)`; the initial
accumulator is `(-inf, -1)`, modelled as `(⊥, none)`, and a candidate
replaces the accumulator only on strict improvement. -/
def scanStarts (lg : ℤ → ℚ) (freq : Lexicon) (text : Word)
    (dp : List (WithBot ℚ)) (i : ℕ) : WithBot ℚ × Option ℕ :=
  let maxLen := min 20 i
  (List.range' (i - maxLen) maxLen).foldl
    (fun acc s =>
      let w := (text.drop s).take (i - s)
      let total := dp.getD s ⊥ + ((dpWordScore lg freq w : ℚ) : WithBot ℚ)
      if acc.1 < total then (total, some s) else acc)
    (⊥, none)

/-- The DP tables of `dynamic_programming_segmentation` after filling
positions `0..k`: `dp` (best score, `⊥` modelling `-inf`) and `parent`
(back pointer, `none` modelling `-1`).  Position `0` holds `(0, -1)`;
each later position takes the scan result, with the source's fallback
`dp[i] = dp[i-1] - 40`, `parent[i] = i - 1` when no candidate was found. -/
def dpArrays (lg : ℤ → ℚ) (freq : Lexicon) (text : Word) :
    ℕ → List (WithBot ℚ) × List (Option ℕ)
  | 0 => ([((0 : ℚ) : WithBot ℚ)], [none])
  | k + 1 =>
    let t := dpArrays lg freq text k
    let res := scanStarts lg freq text t.1 (k + 1)
    match res.2 with
    | some s => (t.1 ++ [res.1], t.2 ++ [some s])
    | none => (t.1 ++ [t.1.getD k ⊥ + ((-40 : ℚ) : WithBot ℚ)], t.2 ++ [some k])

/-- The backtrace loop of `dynamic_programming_segmentation`: follow the
back pointers from position `i`, recording every visited start except 0,
until a `-1` (modelled `none`) pointer is reached.  `fuel` bounds the
number of steps (the source loop terminates because back pointers
decrease). -/
def backtraceAux (parent : List (Option ℕ)) : ℕ → ℕ → List ℕ
  | 0, _ => []
  | fuel + 1, i =>
    match parent.getD i none with
    | none => []
    | some s => (if 0 < s then [s] else []) ++ backtraceAux parent fuel s

/-- Model of `dynamic_programming_segmentation`: empty input gives no positions;
otherwise fill the DP tables, backtrace from `n`, and sort ascending. -/
def dynamic_programming_segmentation (lg : ℤ → ℚ) (freq : Lexicon)
    (text : Word) : List ℕ :=
  if text = [] then []
  else
    let n := text.length
    let t := dpArrays lg freq text n
    (backtraceAux t.2 (n + 1) n).insertionSort (fun a b => a ≤ b)

/-- The inner best-length scan of `greedy_segmentation` at cursor `i`:
lengths `1..min 20 (n - i)` in ascending order; dictionary words of
length at least 2 score `lg freq + L * 0.5`; unknown plausible words of
length 3..12 score `3 + ending bonus`; strict improvement required;
default length 1. -/
def greedyBestLen (lg : ℤ → ℚ) (freq : Lexicon) (text : Word) (i : ℕ) : ℕ :=
  let maxLen := min 20 (text.length - i)
  ((List.range' 1 maxLen).foldl
    (fun (acc : WithBot ℚ × ℕ) L =>
      let w := (text.drop i).take L
      match freq (w.map pyToLower) with
      | some f =>
        let sc : ℚ := lg f + (w.length : ℚ) * (1/2)
        if acc.1 < (sc : WithBot ℚ) ∧ 2 ≤ w.length then (sc, L) else acc
      | none =>
        if 3 ≤ w.length ∧ looks_like_russian_word w then
          let sc : ℚ := 3 + get_ending_bonus w
          if w.length ≤ 12 then
            if acc.1 < (sc : WithBot ℚ) then (sc, L) else acc
          else acc
        else acc)
    (⊥, 1)).2

/-- The cursor loop of `greedy_segmentation`: advance by the best length
and record the new cursor unless it reached the end. -/
def greedyAux (lg : ℤ → ℚ) (freq : Lexicon) (text : Word) :
    ℕ → ℕ → List ℕ
  | 0, _ => []
  | fuel + 1, i =>
    if i < text.length then
      let j := i + greedyBestLen lg freq text i
      if j < text.length then j :: greedyAux lg freq text fuel j else []
    else []

/-- Model of `greedy_segmentation`. -/
def greedy_segmentation (lg : ℤ → ℚ) (freq : Lexicon) (text : Word) :
    List ℕ :=
  if text = [] then []
  else greedyAux lg freq text (text.length + 1) 0

/-- Model of `_get_words_from_positions`: slice the text at
`[0] + sorted(positions) + [len]`, strip each slice, keep the nonempty
ones; empty positions give the whole text (or nothing for empty text). -/
def get_words_from_positions (text : Word) (ps : List ℕ) : List Word :=
  if ps = [] then (if text = [] then [] else [text])
  else
    let all := 0 :: (ps.insertionSort (fun a b => a ≤ b) ++ [text.length])
    ((all.zip all.tail).map
      (fun pr => pyStrip ((text.drop pr.1).take (pr.2 - pr.1)))).filter
      (fun w => !w.isEmpty)

/-- The bad-word test of `combine_methods`: length at most 2 and absent
from the dictionary, or length more than 15 and absent. -/
def isBadWord (freq : Lexicon) (w : Word) : Bool :=
  (w.length ≤ 2 && (freq (w.map pyToLower)).isNone) ||
    (15 < w.length && (freq (w.map pyToLower)).isNone)

/-- The bad-word ratio computed for the DP result in `combine_methods`:
`bad_words / len(words) if words else 0`. -/
def badRatioDP (freq : Lexicon) (ws : List Word) : ℚ :=
  if ws = [] then 0 else (ws.countP (isBadWord freq) : ℚ) / (ws.length : ℚ)

/-- The bad-word ratio computed for the greedy result in
`combine_methods`: `greedy_bad / len(greedy_words) if greedy_words
else 1`. -/
def badRatioGreedy (freq : Lexicon) (ws : List Word) : ℚ :=
  if ws = [] then 1 else (ws.countP (isBadWord freq) : ℚ) / (ws.length : ℚ)

/-- One step of `_filter_positions_simple`: drop edge positions and any
position within distance 1 of the last kept one. -/
def filterKeep (n : ℕ) (kept : List ℕ) (pos : ℕ) : List ℕ :=
  if pos = 0 ∨ n ≤ pos then kept
  else if !kept.isEmpty ∧ pos - kept.getLastD 0 ≤ 1 then kept
  else kept ++ [pos]

/-- Model of `_filter_positions_simple`: scan the sorted positions, keeping
greedily with the edge and minimum-gap rules. -/
def filter_positions_simple (text : Word) (ps : List ℕ) : List ℕ :=
  if ps = [] then ps
  else (ps.insertionSort (fun a b => a ≤ b)).foldl (filterKeep text.length) []

/-- Model of `combine_methods`: run DP, measure its bad ratio, fall back to the
greedy result when the DP ratio exceeds 0.3 and the greedy ratio is
strictly smaller, then filter. -/
def combine_methods (lg : ℤ → ℚ) (freq : Lexicon) (text : Word) : List ℕ :=
  let dpPos := dynamic_programming_segmentation lg freq text
  let ws := get_words_from_positions text dpPos
  let ratio := badRatioDP freq ws
  let chosen :=
    if 3/10 < ratio then
      let gPos := greedy_segmentation lg freq text
      let gws := get_words_from_positions text gPos
      if badRatioGreedy freq gws < ratio then gPos else dpPos
    else dpPos
  filter_positions_simple text chosen

/-- The normalization of `predict_space_positions`:
`text.strip().lower()`. -/
def normalizeText (w : Word) : Word := (pyStrip w).map pyToLower

/-- Model of `sorted(list(set(l)))`: remove duplicates, sort ascending. -/
def dedupSort (l : List ℕ) : List ℕ :=
  (l.dedup).insertionSort (fun a b => a ≤ b)

/-- Model of `predict_space_positions`: inputs shorter than 2 characters give no
positions; otherwise normalize, combine methods, keep strictly interior
positions, deduplicate and sort. -/
def predict_space_positions (lg : ℤ → ℚ) (freq : Lexicon) (text : Word) :
    List ℕ :=
  if text.length < 2 then []
  else
    let processed := normalizeText text
    let positions := combine_methods lg freq processed
    dedupSort (positions.filter
      (fun p => decide (0 < p ∧ p < processed.length)))

/-- Pointwise insertion into the dictionary model. -/
def lexInsert (m : Lexicon) (w : Word) (f : ℤ) : Lexicon :=
  fun x => if x = w then some f else m x

/-- The ingestion filter of `_load_main_frequency_dict`: alphabetic,
length between `min_word_length` and 20, and containing a Cyrillic
character. -/
def mainFilter (minLen : ℕ) (w : Word) : Bool :=
  pyIsAlphaWord w && decide (minLen ≤ w.length) &&
    decide (w.length ≤ 20) && is_cyrillic_word w

/-- One row of `_load_main_frequency_dict`: the raw first column is
lowercased and stripped; if the filter passes and the frequency column
parses as an integer (`none` models a `ValueError`), the word is stored,
overwriting any previous value. -/
def mainStep (minLen : ℕ) (m : Lexicon) (row : Word × Option ℤ) : Lexicon :=
  let w := pyStrip (row.1.map pyToLower)
  if mainFilter minLen w then
    match row.2 with
    | some f => lexInsert m w f
    | none => m
  else m

/-- Model of `_load_main_frequency_dict` over a list of parsed rows. -/
def mainBuild (minLen : ℕ) (rows : List (Word × Option ℤ)) (m : Lexicon) :
    Lexicon :=
  rows.foldl (mainStep minLen) m

/-- The ingestion filter of `_load_json_dict`: alphabetic, length at
least 2, and containing a Cyrillic character. -/
def jsonFilter (w : Word) : Bool :=
  pyIsAlphaWord w && decide (2 ≤ w.length) && is_cyrillic_word w

/-- One entry of `_load_json_dict` (dict branch; the list branch applies
the same filter and guard with weight 100): the key is lowercased and
stripped; if the filter passes, the value parses (`none` models a
`ValueError`; non-int non-str values give 100), and the word is not yet
present, it is stored. -/
def jsonStep (m : Lexicon) (row : Word × Option ℤ) : Lexicon :=
  let w := pyStrip (row.1.map pyToLower)
  if jsonFilter w then
    match row.2 with
    | some f => match m w with | none => lexInsert m w f | some _ => m
    | none => m
  else m

/-- Model of `_load_json_dict` over a list of entries. -/
def jsonBuild (rows : List (Word × Option ℤ)) (m : Lexicon) : Lexicon :=
  rows.foldl jsonStep m

/-- The `avito_words` dict literal of `_add_avito_words`, transcribed as
the ordered list of key-value pairs exactly as written in the source
(including the repeated keys `сниму` and `про`). -/
def avitoPairs : List (Word × ℤ) :=
  [("куплю".toList, 60000), ("продам".toList, 55000), ("сдаю".toList, 50000),
   ("сниму".toList, 45000), ("ищу".toList, 70000), ("отдам".toList, 40000),
   ("обменяю".toList, 35000), ("меняю".toList, 30000),
   ("покупаю".toList, 25000), ("продаю".toList, 20000),
   ("сдам".toList, 30000), ("сниму".toList, 25000),
   ("айфон".toList, 45000), ("iphone".toList, 40000),
   ("samsung".toList, 30000), ("xiaomi".toList, 25000),
   ("huawei".toList, 20000), ("nokia".toList, 15000), ("lg".toList, 18000),
   ("sony".toList, 16000), ("macbook".toList, 20000), ("asus".toList, 15000),
   ("lenovo".toList, 12000), ("hp".toList, 10000), ("dell".toList, 8000),
   ("acer".toList, 7000), ("msi".toList, 6000),
   ("тойота".toList, 15000), ("toyota".toList, 12000), ("бмв".toList, 10000),
   ("bmw".toList, 8000), ("мерседес".toList, 8000), ("mercedes".toList, 6000),
   ("ауди".toList, 7000), ("audi".toList, 5000),
   ("фольксваген".toList, 6000), ("volkswagen".toList, 4000),
   ("киа".toList, 8000), ("kia".toList, 6000), ("хендай".toList, 7000),
   ("hyundai".toList, 5000), ("ниссан".toList, 6000), ("nissan".toList, 4000),
   ("квартиру".toList, 60000), ("квартира".toList, 55000),
   ("квартире".toList, 50000), ("квартиры".toList, 45000),
   ("квартирой".toList, 35000), ("квартир".toList, 40000),
   ("квартирах".toList, 25000), ("комнату".toList, 55000),
   ("комната".toList, 50000), ("комнате".toList, 45000),
   ("комнаты".toList, 40000), ("комнатой".toList, 30000),
   ("комнат".toList, 35000), ("комнатах".toList, 20000),
   ("дом".toList, 45000), ("дома".toList, 40000), ("доме".toList, 35000),
   ("домом".toList, 25000), ("домов".toList, 30000),
   ("студию".toList, 25000), ("студия".toList, 20000),
   ("студии".toList, 18000), ("машину".toList, 50000),
   ("машина".toList, 45000), ("машине".toList, 40000),
   ("машины".toList, 35000), ("машиной".toList, 25000),
   ("машин".toList, 30000), ("авто".toList, 35000),
   ("автомобиль".toList, 30000), ("мотоцикл".toList, 15000),
   ("скутер".toList, 8000), ("велосипед".toList, 12000),
   ("москве".toList, 40000), ("москва".toList, 35000),
   ("московской".toList, 25000), ("подмосковье".toList, 30000),
   ("спб".toList, 20000), ("питер".toList, 15000), ("санкт".toList, 12000),
   ("петербург".toList, 10000), ("екатеринбург".toList, 8000),
   ("новосибирск".toList, 7000), ("казань".toList, 6000),
   ("новый".toList, 40000), ("новая".toList, 35000), ("новое".toList, 30000),
   ("новые".toList, 25000), ("хорошем".toList, 30000),
   ("хорошее".toList, 25000), ("хороший".toList, 20000),
   ("хорошая".toList, 18000), ("отличном".toList, 25000),
   ("отличное".toList, 20000), ("отличный".toList, 15000),
   ("отличная".toList, 12000), ("идеальном".toList, 15000),
   ("идеальное".toList, 12000), ("рабочем".toList, 18000),
   ("рабочее".toList, 15000),
   ("в".toList, 120000), ("на".toList, 110000), ("с".toList, 100000),
   ("для".toList, 80000), ("от".toList, 70000), ("до".toList, 60000),
   ("по".toList, 55000), ("за".toList, 50000), ("под".toList, 40000),
   ("над".toList, 25000), ("без".toList, 35000), ("через".toList, 30000),
   ("при".toList, 25000), ("про".toList, 20000), ("или".toList, 45000),
   ("и".toList, 150000), ("а".toList, 80000), ("но".toList, 40000),
   ("что".toList, 60000), ("недорого".toList, 30000),
   ("дешево".toList, 25000), ("дорого".toList, 15000),
   ("бесплатно".toList, 20000), ("срочно".toList, 25000),
   ("торг".toList, 18000), ("торга".toList, 12000), ("цена".toList, 25000),
   ("рублей".toList, 20000), ("тысяч".toList, 18000),
   ("миллион".toList, 8000), ("доставка".toList, 22000),
   ("диван".toList, 35000), ("кресло".toList, 18000), ("стол".toList, 15000),
   ("кровать".toList, 22000), ("шкаф".toList, 18000),
   ("комод".toList, 10000), ("тумба".toList, 8000), ("полка".toList, 7000),
   ("холодильник".toList, 18000), ("стиральная".toList, 15000),
   ("посудомоечная".toList, 8000), ("микроволновка".toList, 7000),
   ("телевизор".toList, 20000), ("компьютер".toList, 15000),
   ("1".toList, 15000), ("2".toList, 14000), ("3".toList, 13000),
   ("4".toList, 12000), ("5".toList, 11000), ("6".toList, 10000),
   ("7".toList, 9000), ("8".toList, 8000), ("9".toList, 7000),
   ("10".toList, 12000), ("11".toList, 8000), ("12".toList, 7000),
   ("13".toList, 6000), ("14".toList, 9000), ("15".toList, 6000),
   ("16".toList, 7000), ("17".toList, 5000), ("18".toList, 5000),
   ("19".toList, 4000), ("20".toList, 8000), ("30".toList, 6000),
   ("40".toList, 5000), ("50".toList, 5000), ("100".toList, 4000),
   ("про".toList, 18000), ("плюс".toList, 12000), ("макс".toList, 8000),
   ("мини".toList, 6000), ("стандарт".toList, 5000),
   ("премиум".toList, 4000), ("базовый".toList, 3000),
   ("тел".toList, 12000), ("руб".toList, 10000), ("тыс".toList, 8000),
   ("шт".toList, 6000), ("кв".toList, 8000), ("м".toList, 15000),
   ("см".toList, 6000), ("км".toList, 5000), ("г".toList, 12000)]

/-- Insertion into an association list with Python dict semantics: an
existing key keeps its position and takes the new value; a new key is
appended. -/
def dictUpsert : List (Word × ℤ) → Word → ℤ → List (Word × ℤ)
  | [], w, f => [(w, f)]
  | e :: rest, w, f =>
    if e.1 = w then (e.1, f) :: rest else e :: dictUpsert rest w f

/-- The association list a Python dict literal evaluates to: first
position, last value for each key. -/
def dictOfPairs (ps : List (Word × ℤ)) : List (Word × ℤ) :=
  ps.foldl (fun d e => dictUpsert d e.1 e.2) []

/-- One iteration of the merge loop of `_add_avito_words`: store the
curated weight when the word is absent or its stored weight is strictly
smaller. -/
def avitoStep (m : Lexicon) (e : Word × ℤ) : Lexicon :=
  match m e.1 with
  | none => lexInsert m e.1 e.2
  | some v => if v < e.2 then lexInsert m e.1 e.2 else m

/-- Model of `_add_avito_words`: fold the merge step over the items of the
`avito_words` dict. -/
def add_avito_words (m : Lexicon) : Lexicon :=
  (dictOfPairs avitoPairs).foldl avitoStep m

/-- Model of `_load_dictionaries`: main frequency dict, then JSON dict, then the
curated Avito words, starting from the empty dict of `__init__`. -/
def fullBuild (minLen : ℕ) (mainRows jsonRows : List (Word × Option ℤ)) :
    Lexicon :=
  add_avito_words (jsonBuild jsonRows (mainBuild minLen mainRows lexEmpty))

/-! Concrete instantiations used by witnesses and counterexamples. -/

/-- A concrete stand-in for the log model in closed evaluations. -/
def lgZero : ℤ → ℚ := fun _ => 0

/-- A 21-character text with no dictionary or plausible substrings. -/
def qtext : Word := List.replicate 21 'q'

/-- A two-word dictionary used in closed evaluations. -/
def freqPair : Lexicon :=
  fun w => if w = "ab".toList ∨ w = "cd".toList then some 1 else none

/-! Helper lemmas about `dedupSort`. -/

lemma mem_dedupSort {l : List ℕ} {p : ℕ} : p ∈ dedupSort l ↔ p ∈ l := by
  unfold dedupSort
  rw [List.mem_insertionSort, List.mem_dedup]

lemma sorted_lt_dedupSort (l : List ℕ) :
    List.Sorted (fun a b => a < b) (dedupSort l) := by
  unfold dedupSort
  have hs : List.Sorted (fun a b => a ≤ b) (l.dedup.insertionSort (fun a b => a ≤ b)) :=
    List.sorted_insertionSort _ _
  have hn : (l.dedup.insertionSort (fun a b => a ≤ b)).Nodup :=
    (List.perm_insertionSort _ _).symm.nodup (List.nodup_dedup l)
  exact hs.lt_of_le hn

/-- Shared facts about `predict_space_positions`: the result is strictly
sorted and every member is a strictly interior position of the normalized
text. -/
lemma predict_props (lg : ℤ → ℚ) (freq : Lexicon) (t : Word) :
    List.Sorted (fun a b => a < b) (predict_space_positions lg freq t) ∧
      ∀ p ∈ predict_space_positions lg freq t,
        0 < p ∧ p < (normalizeText t).length := by
  unfold predict_space_positions
  by_cases h : t.length < 2
  · simp [h, List.Sorted]
  · simp only [h, if_false]
    refine ⟨sorted_lt_dedupSort _, ?_⟩
    intro p hp
    rw [mem_dedupSort] at hp
    exact of_decide_eq_true (List.mem_filter.mp hp).2

/-- Claim C1: for every input text, every position returned by
`predict_space_positions` is strictly between 0 and the length of the
normalized (stripped, lowercased) text, and the returned list is strictly
increasing with no duplicates. -/
theorem claimC1_positions_interior_sorted (lg : ℤ → ℚ) (freq : Lexicon)
    (t : Word) :
    List.Sorted (fun a b => a < b) (predict_space_positions lg freq t) ∧
      ∀ p ∈ predict_space_positions lg freq t,
        0 < p ∧ p < (normalizeText t).length :=
  predict_props lg freq t

/-- Witness for C1 at a concrete dictionary and text: the boundary 2 is
returned for the text `abcd` and satisfies the bound. -/
theorem claimC1_witness :
    2 ∈ predict_space_positions lgZero freqPair ("abcd".toList) ∧
      0 < 2 ∧ 2 < (normalizeText ("abcd".toList)).length := by
  have hm : 2 ∈ predict_space_positions lgZero freqPair ("abcd".toList) := by
    with_unfolding_all decide
  exact ⟨hm, (claimC1_positions_interior_sorted lgZero freqPair ("abcd".toList)).2 2 hm⟩

/-! Round-trip splitting (spec §6: the boundary list is equivalently an
ordered list of non-empty substrings whose concatenation reproduces the
normalized input). -/

/-- The pieces of `t` between consecutive cut points
`start, p1, ..., pk, length t`. -/
def piecesFrom (t : Word) : ℕ → List ℕ → List Word
  | start, [] => [t.drop start]
  | start, p :: ps => ((t.drop start).take (p - start)) :: piecesFrom t p ps

/-- Splitting a text at a boundary list: the pieces between consecutive
cut points `0, p1, ..., pk, length t`; the empty text has no pieces. -/
def piecesOf (t : Word) (ps : List ℕ) : List Word :=
  if t.isEmpty then [] else piecesFrom t 0 ps

lemma join_piecesFrom (t : Word) :
    ∀ (ps : List ℕ) (start : ℕ), List.Chain (fun a b => a ≤ b) start ps →
      (piecesFrom t start ps).flatten = t.drop start := by
  intro ps
  induction ps with
  | nil => intro start _; simp [piecesFrom]
  | cons p ps ih =>
    intro start hc
    rcases hc with _ | ⟨hsp, hc⟩
    have hdrop : (t.drop start).drop (p - start) = t.drop p := by
      rw [List.drop_drop, Nat.add_sub_cancel' hsp]
    calc (piecesFrom t start (p :: ps)).flatten
        = (t.drop start).take (p - start) ++ (piecesFrom t p ps).flatten := by
          simp [piecesFrom]
      _ = (t.drop start).take (p - start) ++ t.drop p := by rw [ih p hc]
      _ = (t.drop start).take (p - start) ++ (t.drop start).drop (p - start) := by
          rw [hdrop]
      _ = t.drop start := List.take_append_drop _ _

lemma ne_nil_piecesFrom (t : Word) :
    ∀ (ps : List ℕ) (start : ℕ), List.Chain (fun a b => a < b) start ps →
      (∀ p ∈ ps, p < t.length) → start < t.length →
      ∀ w ∈ piecesFrom t start ps, w ≠ [] := by
  intro ps
  induction ps with
  | nil =>
    intro start _ _ hs w hw
    simp only [piecesFrom, List.mem_singleton] at hw
    subst hw
    have : (t.drop start).length = t.length - start := List.length_drop _ _
    intro hnil
    rw [hnil] at this
    simp at this
    omega
  | cons p ps ih =>
    intro start hc hb hs w hw
    rcases hc with _ | ⟨hsp, hc⟩
    simp only [piecesFrom, List.mem_cons] at hw
    rcases hw with hw | hw
    · subst hw
      have hp : p < t.length := hb p (List.mem_cons_self _ _)
      intro hnil
      have hlen := congrArg List.length hnil
      rw [List.length_take, List.length_drop] at hlen
      simp at hlen
      omega
    · exact ih p hc (fun q hq => hb q (List.mem_cons_of_mem _ hq))
        (hb p (List.mem_cons_self _ _)) w hw

/-- Claim C9: splitting the normalized text at the boundary list returned
by `predict_space_positions` yields pieces that concatenate back to the
normalized text, all of them non-empty. -/
theorem claimC9_roundtrip (lg : ℤ → ℚ) (freq : Lexicon) (t : Word) :
    (piecesOf (normalizeText t) (predict_space_positions lg freq t)).flatten
        = normalizeText t ∧
      ∀ w ∈ piecesOf (normalizeText t) (predict_space_positions lg freq t),
        w ≠ [] := by
  obtain ⟨hsorted, hbounds⟩ := predict_props lg freq t
  set nt := normalizeText t with hnt
  set ps := predict_space_positions lg freq t with hps
  by_cases hempty : nt.isEmpty
  · constructor
    · simp [piecesOf, hempty, List.isEmpty_iff.mp hempty]
    · intro w hw
      simp [piecesOf, hempty] at hw
  · have hne : nt ≠ [] := by simpa [List.isEmpty_iff] using hempty
    have hpos : 0 < nt.length := List.length_pos.mpr hne
    have hchainlt : List.Chain (fun a b => a < b) 0 ps := by
      rw [List.chain_iff_pairwise, List.pairwise_cons]
      exact ⟨fun p hp => (hbounds p hp).1, hsorted⟩
    constructor
    · have hchainle : List.Chain (fun a b => a ≤ b) 0 ps :=
        List.Chain.imp (fun a b h => le_of_lt h) hchainlt
      have hj := join_piecesFrom nt ps 0 hchainle
      simp only [piecesOf, if_neg hempty]
      rw [hj, List.drop_zero]
    · intro w hw
      simp only [piecesOf, if_neg hempty] at hw
      exact ne_nil_piecesFrom nt ps 0 hchainlt
        (fun p hp => (hbounds p hp).2) hpos w hw

/-- Witness for C9 at a concrete dictionary and text: splitting `abcd` at
the returned boundary list reproduces the text and the piece `ab` is
non-empty. -/
theorem claimC9_witness :
    (piecesOf (normalizeText ("abcd".toList))
        (predict_space_positions lgZero freqPair ("abcd".toList))).flatten
      = normalizeText ("abcd".toList) ∧ ("ab".toList : Word) ≠ [] := by
  refine ⟨(claimC9_roundtrip lgZero freqPair ("abcd".toList)).1, ?_⟩
  have hm : ("ab".toList : Word) ∈
      piecesOf (normalizeText ("abcd".toList))
        (predict_space_positions lgZero freqPair ("abcd".toList)) := by
    with_unfolding_all decide
  exact (claimC9_roundtrip lgZero freqPair ("abcd".toList)).2 ("ab".toList) hm

/-! Claim C2: the candidate scoring formula as the spec words it. -/

/-- The dictionary-word length-bonus table exactly as the claim lists it:
1 → −30, 2 → 0, 3 → 5, 4 → 10, 5 → 15, 6 → 20, L ≥ 7 → 25 + 3·(L−7). -/
def specLengthBonus : ℕ → ℚ
  | 1 => -30
  | 2 => 0
  | 3 => 5
  | 4 => 10
  | 5 => 15
  | 6 => 20
  | L => 25 + 3 * ((L : ℚ) - 7)

/-- The second length-bonus table exactly as the claim lists it:
3 → 0, 4 → 2, 5 → 4, 6 → 6, L ≥ 7 → 8 + 1.5·(L−7). -/
def specLengthBonus2 : ℕ → ℚ
  | 3 => 0
  | 4 => 2
  | 5 => 4
  | 6 => 6
  | L => 8 + (3/2) * ((L : ℚ) - 7)

/-- The over-length reduction of the claim: 2·(L−12) when L > 12. -/
def specOverLong (L : ℕ) : ℚ := if 12 < L then 2 * ((L : ℚ) - 12) else 0

/-- The short/implausible penalty exactly as the claim lists it. -/
def specPenalty : ℕ → ℚ
  | 1 => -35
  | 2 => -25
  | L => -15 - 3 * (L : ℚ)

/-- The candidate score exactly as the claim words it. -/
def specWordScore (lg : ℤ → ℚ) (freq : Lexicon) (w : Word) : ℚ :=
  match freq (w.map pyToLower) with
  | some f => lg f + specLengthBonus w.length
  | none =>
    if 3 ≤ w.length ∧ looks_like_russian_word w then
      8 + get_ending_bonus w + specLengthBonus2 w.length - specOverLong w.length
    else specPenalty w.length

lemma knownBonus_eq_spec (L : ℕ) (h : 1 ≤ L) :
    dpKnownLengthBonus L = specLengthBonus L := by
  match L, h with
  | 1, _ => rfl
  | 2, _ => rfl
  | 3, _ => rfl
  | 4, _ => rfl
  | 5, _ => rfl
  | 6, _ => rfl
  | (n + 7), _ =>
    show dpKnownLengthBonus (n + 7) = 25 + 3 * (((n + 7 : ℕ) : ℚ) - 7)
    rw [dpKnownLengthBonus, if_pos (by omega)]
    ring

lemma unknownBonus_eq_spec (L : ℕ) (h : 3 ≤ L) :
    dpUnknownLengthBonus L = specLengthBonus2 L - specOverLong L := by
  match L, h with
  | 3, _ => with_unfolding_all rfl
  | 4, _ => with_unfolding_all rfl
  | 5, _ => with_unfolding_all rfl
  | 6, _ => with_unfolding_all rfl
  | (n + 7), _ =>
    show dpUnknownLengthBonus (n + 7)
        = (8 + (3/2) * (((n + 7 : ℕ) : ℚ) - 7)) - specOverLong (n + 7)
    rw [dpUnknownLengthBonus, specOverLong]
    by_cases h12 : 12 < n + 7
    · simp only [if_pos h12, if_pos (show 7 ≤ n + 7 by omega)]
      ring
    · simp only [if_neg h12, if_pos (show 7 ≤ n + 7 by omega)]
      ring

lemma penalty_eq_spec (L : ℕ) : dpImplausiblePenalty L = specPenalty L := by
  match L with
  | 0 =>
    show dpImplausiblePenalty 0 = -15 - 3 * ((0 : ℕ) : ℚ)
    rw [dpImplausiblePenalty]
    norm_num
  | 1 => rfl
  | 2 => rfl
  | (n + 3) =>
    show dpImplausiblePenalty (n + 3) = -15 - 3 * ((n + 3 : ℕ) : ℚ)
    rw [dpImplausiblePenalty, if_neg (by omega), if_neg (by omega)]
    ring

/-- Claim C2: for every candidate span, the score computed inside the
Optimal Segmenter equals the three-branch formula of the spec, with the
two length-bonus tables, the over-length reduction and the short-span
penalties exactly as listed. -/
theorem claimC2_score_formula (lg : ℤ → ℚ) (freq : Lexicon) (w : Word)
    (h : w ≠ []) :
    dpWordScore lg freq w = specWordScore lg freq w := by
  have hL : 1 ≤ w.length := List.length_pos.mpr h
  unfold dpWordScore specWordScore
  cases hf : freq (w.map pyToLower) with
  | some f => rw [knownBonus_eq_spec w.length hL]
  | none =>
    by_cases hg : 3 ≤ w.length ∧ looks_like_russian_word w
    · simp only [if_pos hg]
      rw [unknownBonus_eq_spec w.length hg.1]
      ring
    · simp only [if_neg hg]
      exact penalty_eq_spec w.length

/-- Witness for C2 at a concrete span. -/
theorem claimC2_witness :
    (['q'] : Word) ≠ [] ∧
      dpWordScore lgZero lexEmpty ['q'] = specWordScore lgZero lexEmpty ['q'] :=
  ⟨by decide, claimC2_score_formula lgZero lexEmpty ['q'] (by decide)⟩

/-! Claim C3: the tie-breaking behaviour of the candidate scan. -/

/-- The candidate total `dp[s] + candidateScore(s, i)` examined by the
scan at position `i` for start `s`. -/
def totalAt (lg : ℤ → ℚ) (freq : Lexicon) (text : Word)
    (dp : List (WithBot ℚ)) (i s : ℕ) : WithBot ℚ :=
  dp.getD s ⊥ + ((dpWordScore lg freq ((text.drop s).take (i - s)) : ℚ) : WithBot ℚ)

/-- The ascending scan with strict-improvement updates, abstracted over
the candidate total function. -/
def bestScan (f : ℕ → WithBot ℚ) (l : List ℕ) : WithBot ℚ × Option ℕ :=
  l.foldl (fun acc s => if acc.1 < f s then (f s, some s) else acc) (⊥, none)

lemma scanStarts_eq_bestScan (lg : ℤ → ℚ) (freq : Lexicon) (text : Word)
    (dp : List (WithBot ℚ)) (i : ℕ) :
    scanStarts lg freq text dp i
      = bestScan (totalAt lg freq text dp i)
          (List.range' (i - min 20 i) (min 20 i)) := rfl

/-- The scan over `range' a k` returns either `none` (and all candidates
are `⊥`) or the first-scanned maximizer: its total is maximal over the
window, finite, and strictly above every earlier-scanned candidate. -/
lemma bestScan_range' (f : ℕ → WithBot ℚ) (a : ℕ) : ∀ (k : ℕ),
    ((bestScan f (List.range' a k)).2 = none →
      (bestScan f (List.range' a k)).1 = ⊥ ∧
        ∀ x, a ≤ x → x < a + k → f x = ⊥) ∧
    ∀ s, (bestScan f (List.range' a k)).2 = some s →
      (a ≤ s ∧ s < a + k) ∧ f s = (bestScan f (List.range' a k)).1 ∧
        ⊥ < f s ∧ (∀ x, a ≤ x → x < a + k → f x ≤ f s) ∧
        ∀ x, a ≤ x → x < s → f x < f s := by
  intro k
  induction k with
  | zero =>
    constructor
    · intro _
      exact ⟨rfl, fun x hx hx2 => absurd (lt_of_le_of_lt hx hx2) (by omega)⟩
    · intro s hs
      simp [bestScan] at hs
  | succ k ih =>
    have hconcat : List.range' a (k + 1) = List.range' a k ++ [a + k] := by
      rw [List.range'_concat]
      simp
    have hfold : bestScan f (List.range' a (k + 1))
        = if (bestScan f (List.range' a k)).1 < f (a + k)
            then (f (a + k), some (a + k))
            else bestScan f (List.range' a k) := by
      rw [bestScan, hconcat, List.foldl_append]
      rfl
    rcases hcase : (bestScan f (List.range' a k)).2 with _ | s0
    · obtain ⟨hbot, hall⟩ := ih.1 hcase
      by_cases h : (bestScan f (List.range' a k)).1 < f (a + k)
      · rw [hfold, if_pos h]
        constructor
        · intro habs
          simp at habs
        · intro s hs
          simp only [Option.some.injEq] at hs
          subst hs
          have hbotlt : ⊥ < f (a + k) := hbot ▸ h
          refine ⟨⟨by omega, by omega⟩, rfl, hbotlt, ?_, ?_⟩
          · intro x hx hx2
            rcases Nat.lt_succ_iff_lt_or_eq.mp (by omega : x < a + k + 1) with hlt | heq
            · rw [hall x hx (by omega)]
              exact bot_le
            · rw [show x = a + k by omega]
          · intro x hx hx2
            rw [hall x hx (by omega)]
            exact hbotlt
      · rw [hfold, if_neg h]
        constructor
        · intro _
          refine ⟨hbot, ?_⟩
          intro x hx hx2
          rcases Nat.lt_succ_iff_lt_or_eq.mp (by omega : x < a + k + 1) with hlt | heq
          · exact hall x hx hlt
          · have : f (a + k) ≤ ⊥ := hbot ▸ not_lt.mp h
            rw [show x = a + k by omega]
            exact le_bot_iff.mp this
        · intro s hs
          rw [hcase] at hs
          simp at hs
    · obtain ⟨⟨hs0a, hs0b⟩, hfs0, hbots0, hmax, hstrict⟩ := ih.2 s0 hcase
      by_cases h : (bestScan f (List.range' a k)).1 < f (a + k)
      · rw [hfold, if_pos h]
        constructor
        · intro habs
          simp at habs
        · intro s hs
          simp only [Option.some.injEq] at hs
          subst hs
          have hlt : f s0 < f (a + k) := hfs0 ▸ h
          refine ⟨⟨by omega, by omega⟩, rfl, lt_trans hbots0 hlt, ?_, ?_⟩
          · intro x hx hx2
            rcases Nat.lt_succ_iff_lt_or_eq.mp (by omega : x < a + k + 1) with hlt2 | heq
            · exact le_of_lt (lt_of_le_of_lt (hmax x hx hlt2) hlt)
            · rw [show x = a + k by omega]
          · intro x hx hx2
            exact lt_of_le_of_lt (hmax x hx (by omega)) hlt
      · rw [hfold, if_neg h]
        constructor
        · intro habs
          rw [hcase] at habs
          simp at habs
        · intro s hs
          rw [hcase] at hs
          simp only [Option.some.injEq] at hs
          subst hs
          refine ⟨⟨hs0a, by omega⟩, hfs0, hbots0, ?_, hstrict⟩
          intro x hx hx2
          rcases Nat.lt_succ_iff_lt_or_eq.mp (by omega : x < a + k + 1) with hlt2 | heq
          · exact hmax x hx hlt2
          · have : f (a + k) ≤ f s0 := hfs0 ▸ not_lt.mp h
            rw [show x = a + k by omega]
            exact this

/-- Claim C3 (amended): at every position `i` the scan examines the
starts of the window `max(0, i − 20) .. i − 1` in ascending order with a
strict-improvement comparison, and the selected start attains the maximal
total; when several starts tie, the selected one is the smallest (the
first scanned), i.e. the LONGEST candidate word, every strictly smaller
start being strictly worse. -/
theorem claimC3_scan_tiebreak (lg : ℤ → ℚ) (freq : Lexicon) (text : Word)
    (dp : List (WithBot ℚ)) (i s : ℕ)
    (h : (scanStarts lg freq text dp i).2 = some s) :
    (i - min 20 i ≤ s ∧ s < i) ∧
      totalAt lg freq text dp i s = (scanStarts lg freq text dp i).1 ∧
      (∀ x, i - min 20 i ≤ x → x < i →
        totalAt lg freq text dp i x ≤ totalAt lg freq text dp i s) ∧
      ∀ x, i - min 20 i ≤ x → x < s →
        totalAt lg freq text dp i x < totalAt lg freq text dp i s := by
  rw [scanStarts_eq_bestScan] at h
  have ha : i - min 20 i + min 20 i = i := Nat.sub_add_cancel (min_le_right _ _)
  have key := (bestScan_range' (totalAt lg freq text dp i)
    (i - min 20 i) (min 20 i)).2 s h
  rw [ha] at key
  rw [scanStarts_eq_bestScan]
  exact ⟨key.1, key.2.1, key.2.2.2.1, key.2.2.2.2⟩

set_option maxRecDepth 200000 in
/-- Counterexample to C3 as stated: on a 21-character text with no
dictionary or plausible spans, at position 21 the candidate starts 3 and
18 have equal totals; the word at start 18 is strictly shorter, yet the
scan selects start 3 (the longest word), not the shortest. -/
theorem claimC3_counterexample :
    (scanStarts lgZero lexEmpty qtext
        (dpArrays lgZero lexEmpty qtext 20).1 21).2 = some 3 ∧
      totalAt lgZero lexEmpty qtext (dpArrays lgZero lexEmpty qtext 20).1 21 18
        = totalAt lgZero lexEmpty qtext (dpArrays lgZero lexEmpty qtext 20).1 21 3 ∧
      ((qtext.drop 18).take (21 - 18)).length
        < ((qtext.drop 3).take (21 - 3)).length := by
  refine ⟨?_, ?_, by decide⟩
  · with_unfolding_all decide
  · with_unfolding_all decide

/-- Witness for the amended C3 at a concrete scan. -/
theorem claimC3_witness :
    (scanStarts lgZero lexEmpty ['q'] [((0 : ℚ) : WithBot ℚ)] 1).2 = some 0 ∧
      ((1 - min 20 1 ≤ 0 ∧ 0 < 1) ∧
        totalAt lgZero lexEmpty ['q'] [((0 : ℚ) : WithBot ℚ)] 1 0
          = (scanStarts lgZero lexEmpty ['q'] [((0 : ℚ) : WithBot ℚ)] 1).1 ∧
        (∀ x, 1 - min 20 1 ≤ x → x < 1 →
          totalAt lgZero lexEmpty ['q'] [((0 : ℚ) : WithBot ℚ)] 1 x
            ≤ totalAt lgZero lexEmpty ['q'] [((0 : ℚ) : WithBot ℚ)] 1 0) ∧
        ∀ x, 1 - min 20 1 ≤ x → x < 0 →
          totalAt lgZero lexEmpty ['q'] [((0 : ℚ) : WithBot ℚ)] 1 x
            < totalAt lgZero lexEmpty ['q'] [((0 : ℚ) : WithBot ℚ)] 1 0) := by
  have hsel : (scanStarts lgZero lexEmpty ['q'] [((0 : ℚ) : WithBot ℚ)] 1).2
      = some 0 := by
    with_unfolding_all decide
  exact ⟨hsel, claimC3_scan_tiebreak lgZero lexEmpty ['q']
    [((0 : ℚ) : WithBot ℚ)] 1 0 hsel⟩

/-! Claim C4: the fallback branch is unreachable and the DP table never
holds the `-inf` sentinel. -/

lemma dpArrays_step (lg : ℤ → ℚ) (freq : Lexicon) (text : Word) (k : ℕ) :
    dpArrays lg freq text (k + 1)
      = match (scanStarts lg freq text (dpArrays lg freq text k).1 (k + 1)).2 with
        | some s =>
            ((dpArrays lg freq text k).1
                ++ [(scanStarts lg freq text (dpArrays lg freq text k).1 (k + 1)).1],
              (dpArrays lg freq text k).2 ++ [some s])
        | none =>
            ((dpArrays lg freq text k).1
                ++ [(dpArrays lg freq text k).1.getD k ⊥ + ((-40 : ℚ) : WithBot ℚ)],
              (dpArrays lg freq text k).2 ++ [some k]) := rfl

lemma dpArrays_fst_length (lg : ℤ → ℚ) (freq : Lexicon) (text : Word) :
    ∀ k, (dpArrays lg freq text k).1.length = k + 1 := by
  intro k
  induction k with
  | zero => rfl
  | succ k ih =>
    rw [dpArrays_step]
    rcases (scanStarts lg freq text (dpArrays lg freq text k).1 (k + 1)).2 with _ | s
    · simp [ih]
    · simp [ih]

lemma dp_ne_bot (lg : ℤ → ℚ) (freq : Lexicon) (text : Word) :
    ∀ k, ∀ j, j ≤ k → (dpArrays lg freq text k).1.getD j ⊥ ≠ ⊥ := by
  intro k
  induction k with
  | zero =>
    intro j hj
    rw [Nat.le_zero.mp hj]
    exact WithBot.coe_ne_bot
  | succ k ih =>
    intro j hj
    rcases Nat.lt_succ_iff_lt_or_eq.mp (Nat.lt_succ_of_le hj) with hlt | heq
    · have hjk : j ≤ k := by omega
      rw [dpArrays_step]
      have hlen : j < (dpArrays lg freq text k).1.length := by
        rw [dpArrays_fst_length]
        omega
      rcases hres : (scanStarts lg freq text (dpArrays lg freq text k).1 (k + 1)).2
          with _ | s
      · simp only
        rw [List.getD_append _ _ _ _ hlen]
        exact ih j hjk
      · simp only
        rw [List.getD_append _ _ _ _ hlen]
        exact ih j hjk
    · subst heq
      rw [dpArrays_step]
      have hlen : (dpArrays lg freq text k).1.length = k + 1 :=
        dpArrays_fst_length lg freq text k
      rcases hres : (scanStarts lg freq text (dpArrays lg freq text k).1 (k + 1)).2
          with _ | s
      · rw [List.getD_append_right _ _ _ _ (by omega), hlen]
        simp only [Nat.sub_self, List.getD_cons_zero]
        exact WithBot.add_ne_bot.mpr ⟨ih k le_rfl, WithBot.coe_ne_bot⟩
      · rw [List.getD_append_right _ _ _ _ (by omega), hlen]
        simp only [Nat.sub_self, List.getD_cons_zero]
        rw [scanStarts_eq_bestScan] at hres
        have key := (bestScan_range'
          (totalAt lg freq text (dpArrays lg freq text k).1 (k + 1))
          (k + 1 - min 20 (k + 1)) (min 20 (k + 1))).2 s hres
        rw [scanStarts_eq_bestScan, ← key.2.1]
        exact bot_lt_iff_ne_bot.mp key.2.2.1

/-- Claim C4: for every position `i ≤ n`, the DP value at `i` is finite
(never the `-inf` sentinel), and for `i ≥ 1` the candidate scan at `i`
always selects some start, so the no-candidate fallback branch is
unreachable. -/
theorem claimC4_no_fallback (lg : ℤ → ℚ) (freq : Lexicon) (text : Word)
    (i : ℕ) (_hi : i ≤ text.length) :
    (dpArrays lg freq text i).1.getD i ⊥ ≠ ⊥ ∧
      (1 ≤ i →
        (scanStarts lg freq text (dpArrays lg freq text (i - 1)).1 i).2 ≠ none) := by
  refine ⟨dp_ne_bot lg freq text i i le_rfl, ?_⟩
  intro h1 habs
  rw [scanStarts_eq_bestScan] at habs
  have key := (bestScan_range'
    (totalAt lg freq text (dpArrays lg freq text (i - 1)).1 i)
    (i - min 20 i) (min 20 i)).1 habs
  have ha : i - min 20 i + min 20 i = i := Nat.sub_add_cancel (min_le_right _ _)
  have hmin1 : 1 ≤ min 20 i := by omega
  have hwin : i - min 20 i ≤ i - 1 ∧ i - 1 < i - min 20 i + min 20 i := by omega
  have hbot := key.2 (i - 1) hwin.1 hwin.2
  have hne : totalAt lg freq text (dpArrays lg freq text (i - 1)).1 i (i - 1) ≠ ⊥ := by
    unfold totalAt
    exact WithBot.add_ne_bot.mpr
      ⟨dp_ne_bot lg freq text (i - 1) (i - 1) le_rfl, WithBot.coe_ne_bot⟩
  exact hne hbot

/-- Witness for C4 at a concrete text and position. -/
theorem claimC4_witness :
    (2 ≤ (['q', 'q'] : Word).length) ∧
      ((dpArrays lgZero lexEmpty ['q', 'q'] 2).1.getD 2 ⊥ ≠ ⊥ ∧
        (1 ≤ 2 →
          (scanStarts lgZero lexEmpty ['q', 'q']
            (dpArrays lgZero lexEmpty ['q', 'q'] (2 - 1)).1 2).2 ≠ none)) :=
  ⟨by decide, claimC4_no_fallback lgZero lexEmpty ['q', 'q'] 2 (by decide)⟩

/-! Claims C5 and C6: Lexicon construction. -/

lemma lexInsert_self (m : Lexicon) (w : Word) (f : ℤ) :
    lexInsert m w f w = some f := by
  simp [lexInsert]

lemma lexInsert_cases (m : Lexicon) (w x : Word) (f : ℤ)
    (h : lexInsert m w f x ≠ none) : x = w ∨ m x ≠ none := by
  by_cases hx : x = w
  · exact Or.inl hx
  · right
    rw [lexInsert, if_neg hx] at h
    exact h

/-- Fold preservation of a predicate, remembering membership of the
elements folded over. -/
lemma foldl_preserve_mem {α β : Type} (P : α → Prop) (F : α → β → α) :
    ∀ (l : List β), (∀ a b, b ∈ l → P a → P (F a b)) →
      ∀ a, P a → P (l.foldl F a) := by
  intro l
  induction l with
  | nil => intro _ a ha; exact ha
  | cons c cs ih =>
    intro h a ha
    exact ih (fun a' b hb ha' => h a' b (List.mem_cons_of_mem _ hb) ha')
      (F a c) (h a c (List.mem_cons_self _ _) ha)

/-- The part of the generic-source filter common to both loaders:
alphabetic and containing a Cyrillic character. -/
def genericGood (w : Word) : Prop :=
    pyIsAlphaWord w = true ∧ is_cyrillic_word w = true

lemma mainFilter_good {minLen : ℕ} {w : Word}
    (h : mainFilter minLen w = true) : genericGood w := by
  rw [mainFilter] at h
  simp only [Bool.and_eq_true] at h
  exact ⟨h.1.1.1, h.2⟩

lemma jsonFilter_good {w : Word} (h : jsonFilter w = true) : genericGood w := by
  rw [jsonFilter] at h
  simp only [Bool.and_eq_true] at h
  exact ⟨h.1.1, h.2⟩

lemma mainStep_preserve (minLen : ℕ) (m : Lexicon) (row : Word × Option ℤ)
    (hm : ∀ x, m x ≠ none → genericGood x) :
    ∀ x, mainStep minLen m row x ≠ none → genericGood x := by
  intro x hx
  rw [mainStep] at hx
  by_cases hf : mainFilter minLen (pyStrip (row.1.map pyToLower)) = true
  · rw [if_pos hf] at hx
    cases hrow : row.2 with
    | some f =>
      rw [hrow] at hx
      rcases lexInsert_cases _ _ _ _ hx with heq | hne
      · exact heq ▸ mainFilter_good hf
      · exact hm x hne
    | none =>
      rw [hrow] at hx
      exact hm x hx
  · rw [if_neg hf] at hx
    exact hm x hx

lemma jsonStep_preserve (m : Lexicon) (row : Word × Option ℤ)
    (hm : ∀ x, m x ≠ none → genericGood x) :
    ∀ x, jsonStep m row x ≠ none → genericGood x := by
  intro x hx
  rw [jsonStep] at hx
  by_cases hf : jsonFilter (pyStrip (row.1.map pyToLower)) = true
  · rw [if_pos hf] at hx
    cases hrow : row.2 with
    | some f =>
      rw [hrow] at hx
      cases hpresent : m (pyStrip (row.1.map pyToLower)) with
      | none =>
        rw [hpresent] at hx
        rcases lexInsert_cases _ _ _ _ hx with heq | hne
        · exact heq ▸ jsonFilter_good hf
        · exact hm x hne
      | some v =>
        rw [hpresent] at hx
        exact hm x hx
    | none =>
      rw [hrow] at hx
      exact hm x hx
  · rw [if_neg hf] at hx
    exact hm x hx

lemma mem_dictUpsert (d : List (Word × ℤ)) (u : Word) (g : ℤ) :
    ∀ e ∈ dictUpsert d u g, e ∈ d ∨ e.1 = u := by
  induction d with
  | nil =>
    intro e he
    simp only [dictUpsert, List.mem_singleton] at he
    exact Or.inr (by rw [he])
  | cons c cs ih =>
    intro e he
    rw [dictUpsert] at he
    by_cases hc : c.1 = u
    · rw [if_pos hc] at he
      rcases List.mem_cons.mp he with heq | hmem
      · exact Or.inr (by rw [heq]; exact hc)
      · exact Or.inl (List.mem_cons_of_mem _ hmem)
    · rw [if_neg hc] at he
      rcases List.mem_cons.mp he with heq | hmem
      · exact Or.inl (heq ▸ List.mem_cons_self _ _)
      · rcases ih e hmem with h1 | h2
        · exact Or.inl (List.mem_cons_of_mem _ h1)
        · exact Or.inr h2

/-- Every key of the dict built from a pair list is a key of the list. -/
lemma dictOfPairs_keys (ps : List (Word × ℤ)) :
    ∀ e ∈ dictOfPairs ps, ∃ g, (e.1, g) ∈ ps := by
  rw [dictOfPairs]
  have main : ∀ (l : List (Word × ℤ)) (d : List (Word × ℤ)),
      (∀ e ∈ d, ∃ g, (e.1, g) ∈ ps) → (∀ e ∈ l, ∃ g, (e.1, g) ∈ ps) →
      ∀ e ∈ l.foldl (fun d e => dictUpsert d e.1 e.2) d, ∃ g, (e.1, g) ∈ ps := by
    intro l
    induction l with
    | nil => intro d hd _ e he; exact hd e he
    | cons c cs ih =>
      intro d hd hl e he
      refine ih (dictUpsert d c.1 c.2) ?_
        (fun e' he' => hl e' (List.mem_cons_of_mem _ he')) e he
      intro e' he'
      rcases mem_dictUpsert d c.1 c.2 e' he' with h1 | h2
      · exact hd e' h1
      · rw [h2]
        obtain ⟨g, hg⟩ := hl c (List.mem_cons_self _ _)
        exact ⟨g, hg⟩
  exact main ps [] (by intro e he; simp at he) (fun e he => ⟨e.2, he⟩)

lemma lexInsert_ne_none (m : Lexicon) (w x : Word) (f : ℤ)
    (h : m x ≠ none) : lexInsert m w f x ≠ none := by
  by_cases hx : x = w
  · rw [hx, lexInsert_self]
    exact Option.some_ne_none _
  · rw [lexInsert, if_neg hx]
    exact h

lemma avitoStep_preserve_mem (m : Lexicon) (e : Word × ℤ) (x : Word)
    (h : m x ≠ none) : avitoStep m e x ≠ none := by
  rw [avitoStep]
  cases hm : m e.1 with
  | none => exact lexInsert_ne_none m e.1 x e.2 h
  | some v =>
    show (if v < e.2 then lexInsert m e.1 e.2 else m) x ≠ none
    by_cases hv : v < e.2
    · rw [if_pos hv]
      exact lexInsert_ne_none m e.1 x e.2 h
    · rw [if_neg hv]
      exact h

lemma avitoStep_self (m : Lexicon) (e : Word × ℤ) :
    avitoStep m e e.1 ≠ none := by
  rw [avitoStep]
  cases hm : m e.1 with
  | none =>
    show lexInsert m e.1 e.2 e.1 ≠ none
    rw [lexInsert_self]
    exact Option.some_ne_none _
  | some v =>
    show (if v < e.2 then lexInsert m e.1 e.2 else m) e.1 ≠ none
    by_cases hv : v < e.2
    · rw [if_pos hv, lexInsert_self]
      exact Option.some_ne_none _
    · rw [if_neg hv, hm]
      exact Option.some_ne_none _

lemma avitoStep_cases (m : Lexicon) (e : Word × ℤ) (x : Word)
    (h : avitoStep m e x ≠ none) : x = e.1 ∨ m x ≠ none := by
  rw [avitoStep] at h
  cases hm : m e.1 with
  | none =>
    rw [hm] at h
    exact lexInsert_cases _ _ _ _ h
  | some v =>
    rw [hm] at h
    have h2 : (if v < e.2 then lexInsert m e.1 e.2 else m) x ≠ none := h
    by_cases hv : v < e.2
    · rw [if_pos hv] at h2
      exact lexInsert_cases _ _ _ _ h2
    · rw [if_neg hv] at h2
      exact Or.inr h2

lemma avitoFold_preserve (l : List (Word × ℤ)) (m : Lexicon) (x : Word)
    (h : m x ≠ none) : l.foldl avitoStep m x ≠ none := by
  induction l generalizing m with
  | nil => exact h
  | cons c cs ih => exact ih (avitoStep m c) (avitoStep_preserve_mem m c x h)

lemma avitoFold_mem (l : List (Word × ℤ)) (m : Lexicon) (x : Word)
    (h : ∃ f, (x, f) ∈ l) : l.foldl avitoStep m x ≠ none := by
  induction l generalizing m with
  | nil =>
    obtain ⟨f, hf⟩ := h
    simp at hf
  | cons c cs ih =>
    obtain ⟨f, hf⟩ := h
    rcases List.mem_cons.mp hf with heq | hmem
    · have hx : x = c.1 := congrArg Prod.fst heq
      exact avitoFold_preserve cs (avitoStep m c) x (hx ▸ avitoStep_self m c)
    · exact ih (avitoStep m c) ⟨f, hmem⟩

/-- A key present in the raw pair list is present in the dict built from
it. -/
lemma dictOfPairs_mem (ps : List (Word × ℤ)) (x : Word)
    (h : ∃ f, (x, f) ∈ ps) : ∃ g, (x, g) ∈ dictOfPairs ps := by
  rw [dictOfPairs]
  have self_mem : ∀ (d : List (Word × ℤ)) (u : Word) (g : ℤ),
      ∃ g', (u, g') ∈ dictUpsert d u g := by
    intro d
    induction d with
    | nil => intro u g; exact ⟨g, List.mem_singleton.mpr rfl⟩
    | cons c cs ih =>
      intro u g
      rw [dictUpsert]
      by_cases hc : c.1 = u
      · exact ⟨g, by rw [if_pos hc, hc]; exact List.mem_cons_self _ _⟩
      · obtain ⟨g', hg'⟩ := ih u g
        exact ⟨g', by rw [if_neg hc]; exact List.mem_cons_of_mem _ hg'⟩
  have keep : ∀ (d : List (Word × ℤ)) (u : Word) (g : ℤ),
      (∃ g', (x, g') ∈ d) → ∃ g', (x, g') ∈ dictUpsert d u g := by
    intro d
    induction d with
    | nil =>
      intro u g hg
      obtain ⟨g', hg'⟩ := hg
      simp at hg'
    | cons c cs ih =>
      intro u g hg
      obtain ⟨g', hg'⟩ := hg
      rw [dictUpsert]
      by_cases hc : c.1 = u
      · rw [if_pos hc]
        rcases List.mem_cons.mp hg' with heq | hmem
        · have hxc : x = c.1 := congrArg Prod.fst heq
          exact ⟨g, by rw [hxc, hc]; exact List.mem_cons_self _ _⟩
        · exact ⟨g', List.mem_cons_of_mem _ hmem⟩
      · rw [if_neg hc]
        rcases List.mem_cons.mp hg' with heq | hmem
        · exact ⟨g', by rw [heq]; exact List.mem_cons_self _ _⟩
        · obtain ⟨g'', hg''⟩ := ih u g ⟨g', hmem⟩
          exact ⟨g'', List.mem_cons_of_mem _ hg''⟩
  have main : ∀ (l : List (Word × ℤ)) (d : List (Word × ℤ)),
      ((∃ g, (x, g) ∈ d) ∨ (∃ g, (x, g) ∈ l)) →
      ∃ g, (x, g) ∈ l.foldl (fun d e => dictUpsert d e.1 e.2) d := by
    intro l
    induction l with
    | nil =>
      intro d hd
      rcases hd with hd | hd
      · exact hd
      · obtain ⟨g, hg⟩ := hd
        simp at hg
    | cons c cs ih =>
      intro d hd
      rcases hd with hd | hd
      · exact ih (dictUpsert d c.1 c.2) (Or.inl (keep d c.1 c.2 hd))
      · obtain ⟨g, hg⟩ := hd
        rcases List.mem_cons.mp hg with heq | hmem
        · have hx : x = c.1 := congrArg Prod.fst heq
          exact ih (dictUpsert d c.1 c.2) (Or.inl (hx ▸ self_mem d c.1 c.2))
        · exact ih (dictUpsert d c.1 c.2) (Or.inr ⟨g, hmem⟩)
  exact main ps [] (Or.inr h)

/-- Claim C5 (amended): every entry of the fully constructed Lexicon
either satisfies the generic-source filter (alphabetic with at least one
Cyrillic character; the main source additionally bounds the length by
`min_word_length..20`, the JSON source by `≥ 2`) or is one of the curated
`avito_words`, which are added with no filter at all. -/
theorem claimC5_lexicon_filter (minLen : ℕ)
    (mainRows jsonRows : List (Word × Option ℤ)) (w : Word)
    (hw : fullBuild minLen mainRows jsonRows w ≠ none) :
    genericGood w ∨ ∃ f, (w, f) ∈ avitoPairs := by
  have hmain : ∀ x, mainBuild minLen mainRows lexEmpty x ≠ none →
      genericGood x := by
    rw [mainBuild]
    refine foldl_preserve_mem (fun m => ∀ x, m x ≠ none → genericGood x)
      (mainStep minLen) mainRows
      (fun a b _ ha => mainStep_preserve minLen a b ha) lexEmpty ?_
    intro x hx
    exact absurd rfl hx
  have hjson : ∀ x,
      jsonBuild jsonRows (mainBuild minLen mainRows lexEmpty) x ≠ none →
      genericGood x := by
    rw [jsonBuild]
    exact foldl_preserve_mem (fun m => ∀ x, m x ≠ none → genericGood x)
      jsonStep jsonRows (fun a b _ ha => jsonStep_preserve a b ha) _ hmain
  rw [fullBuild, add_avito_words] at hw
  have hfinal := foldl_preserve_mem
    (fun m => ∀ x, m x ≠ none → genericGood x ∨ ∃ f, (x, f) ∈ avitoPairs)
    avitoStep (dictOfPairs avitoPairs)
    (by
      intro m e he hm x hx
      rcases avitoStep_cases m e x hx with heq | hne
      · obtain ⟨g, hg⟩ := dictOfPairs_keys avitoPairs e he
        exact Or.inr ⟨g, by rw [heq]; exact hg⟩
      · exact hm x hne)
    (jsonBuild jsonRows (mainBuild minLen mainRows lexEmpty))
    (fun x hx => Or.inl (hjson x hx))
  exact hfinal w hw

/-- Counterexample to C5 as stated: the curated word `iphone` is present
in the fully constructed Lexicon but contains no Cyrillic character, so
the ingestion filter does not hold for every entry. -/
theorem claimC5_counterexample :
    fullBuild 1 [] [] ("iphone".toList) ≠ none ∧
      is_cyrillic_word ("iphone".toList) = false := by
  constructor
  · rw [fullBuild, add_avito_words]
    refine avitoFold_mem _ _ _ (dictOfPairs_mem avitoPairs _ ⟨40000, ?_⟩)
    with_unfolding_all decide
  · decide

/-- Witness for the amended C5 at the curated entry `iphone`. -/
theorem claimC5_witness :
    fullBuild 1 [] [] ("iphone".toList) ≠ none ∧
      (genericGood ("iphone".toList) ∨
        ∃ f, (("iphone".toList : Word), f) ∈ avitoPairs) := by
  have hne : fullBuild 1 [] [] ("iphone".toList) ≠ none := by
    rw [fullBuild, add_avito_words]
    refine avitoFold_mem _ _ _ (dictOfPairs_mem avitoPairs _ ⟨40000, ?_⟩)
    with_unfolding_all decide
  exact ⟨hne, claimC5_lexicon_filter 1 [] [] ("iphone".toList) hne⟩

/-- Claim C6 (amended): within the main frequency source a later
successfully parsed occurrence of a word always overwrites the stored
weight (so the LAST one wins); the JSON source never overwrites an
existing entry; a curated-override entry replaces the stored weight
exactly when the override weight is strictly greater. -/
theorem claimC6_merge_rules :
    (∀ (minLen : ℕ) (m : Lexicon) (w : Word) (f : ℤ),
        mainFilter minLen (pyStrip (w.map pyToLower)) = true →
        mainStep minLen m (w, some f) (pyStrip (w.map pyToLower)) = some f) ∧
      (∀ (m : Lexicon) (row : Word × Option ℤ) (x : Word),
        m x ≠ none → jsonStep m row x = m x) ∧
      ∀ (m : Lexicon) (e : Word × ℤ) (v : ℤ), m e.1 = some v →
        avitoStep m e e.1 = some (if v < e.2 then e.2 else v) := by
  refine ⟨?_, ?_, ?_⟩
  · intro minLen m w f h
    show (if mainFilter minLen (pyStrip (w.map pyToLower)) = true
          then lexInsert m (pyStrip (w.map pyToLower)) f
          else m) (pyStrip (w.map pyToLower)) = some f
    rw [if_pos h]
    exact lexInsert_self m _ f
  · intro m row x hx
    rw [jsonStep]
    by_cases hf : jsonFilter (pyStrip (row.1.map pyToLower)) = true
    · rw [if_pos hf]
      cases hrow : row.2 with
      | none => rfl
      | some f =>
        cases hpresent : m (pyStrip (row.1.map pyToLower)) with
        | none =>
          show lexInsert m (pyStrip (row.1.map pyToLower)) f x = m x
          have hxw : x ≠ pyStrip (row.1.map pyToLower) :=
            fun hxx => hx (by rw [hxx, hpresent])
          rw [lexInsert, if_neg hxw]
        | some v => rfl
    · rw [if_neg hf]
  · intro m e v hv
    rw [avitoStep, hv]
    show (if v < e.2 then lexInsert m e.1 e.2 else m) e.1
        = some (if v < e.2 then e.2 else v)
    by_cases h2 : v < e.2
    · rw [if_pos h2, if_pos h2, lexInsert_self]
    · rw [if_neg h2, if_neg h2, hv]

/-- Counterexample to C6 as stated: two rows of the main frequency source
with the same word `да` and weights 5 then 7 leave weight 7 in the
Lexicon, so the FIRST occurrence does not determine the weight. -/
theorem claimC6_counterexample :
    mainBuild 1 [("да".toList, some 5), ("да".toList, some 7)] lexEmpty
        ("да".toList) = some 7 ∧
      some (7 : ℤ) ≠ some (5 : ℤ) := by
  constructor
  · with_unfolding_all decide
  · decide

/-- Witness for the amended C6: each of the three merge rules applied at
a concrete instance. -/
theorem claimC6_witness :
    (mainFilter 1 (pyStrip (("да".toList).map pyToLower)) = true ∧
        mainStep 1 lexEmpty ("да".toList, some 5)
          (pyStrip (("да".toList).map pyToLower)) = some 5) ∧
      ((fun _ => some (9 : ℤ) : Lexicon) ("в".toList) ≠ none ∧
        jsonStep (fun _ => some (9 : ℤ)) ("да".toList, some 3) ("в".toList)
          = (fun _ => some (9 : ℤ) : Lexicon) ("в".toList)) ∧
      ((fun _ => some (5 : ℤ) : Lexicon) (("про".toList, (18000 : ℤ)).1)
          = some 5 ∧
        avitoStep (fun _ => some (5 : ℤ)) ("про".toList, 18000)
          (("про".toList, (18000 : ℤ)).1)
          = some (if (5 : ℤ) < ("про".toList, (18000 : ℤ)).2
              then ("про".toList, (18000 : ℤ)).2 else 5)) := by
  have h1 : mainFilter 1 (pyStrip (("да".toList).map pyToLower)) = true := by
    with_unfolding_all decide
  have h2 : (fun _ => some (9 : ℤ) : Lexicon) ("в".toList) ≠ none := by
    decide
  have h3 : (fun _ => some (5 : ℤ) : Lexicon) (("про".toList, (18000 : ℤ)).1)
      = some 5 := by decide
  exact ⟨⟨h1, claimC6_merge_rules.1 1 lexEmpty ("да".toList) 5 h1⟩,
    ⟨h2, claimC6_merge_rules.2.1 (fun _ => some 9) ("да".toList, some 3)
      ("в".toList) h2⟩,
    ⟨h3, claimC6_merge_rules.2.2 (fun _ => some 5) ("про".toList, 18000) 5 h3⟩⟩

/-- Counterexample to C7 as stated: the Selector's zero-words ratio for
the greedy segmentation is 1, not 0 as for the DP segmentation. -/
theorem claimC7_counterexample :
    badRatioGreedy lexEmpty [] = 1 ∧ (1 : ℚ) ≠ 0 := by
  exact ⟨rfl, one_ne_zero⟩

/-- Claim C7 (amended): both bad ratios are computed by the same
count-over-length formula on a nonempty word list and neither divides by
zero; but in the zero-words case the DP ratio is defined as 0 while the
greedy ratio is defined as 1. -/
theorem claimC7_bad_ratios :
    (∀ freq : Lexicon, badRatioDP freq [] = 0 ∧ badRatioGreedy freq [] = 1) ∧
      ∀ (freq : Lexicon) (ws : List Word), ws ≠ [] →
        badRatioGreedy freq ws = badRatioDP freq ws := by
  refine ⟨fun freq => ⟨rfl, rfl⟩, ?_⟩
  intro freq ws h
  rw [badRatioDP, badRatioGreedy, if_neg h, if_neg h]

/-- Witness for the amended C7 on a one-word list. -/
theorem claimC7_witness :
    (([['q']] : List Word) ≠ []) ∧
      badRatioGreedy lexEmpty [['q']] = badRatioDP lexEmpty [['q']] := by
  have h : ([['q']] : List Word) ≠ [] := by decide
  exact ⟨h, claimC7_bad_ratios.2 lexEmpty [['q']] h⟩

/-- Counterexample to C8 as stated: the span `абաб` contains the Armenian
letter `ա`, which is alphabetic but not a letter of the program's own
Cyrillic alphabet, yet the plausibility predicate accepts the span. -/
theorem claimC8_counterexample :
    looks_like_russian_word ("абաб".toList) = true ∧
      'ա' ∈ "абաб".toList ∧ pyIsAlpha 'ա' = true ∧
      cyrillicChars.contains 'ա' = false := by
  refine ⟨?_, by decide, by decide, by decide⟩
  with_unfolding_all decide

/-- Claim C8 (amended): the plausibility predicate rejects every span one
of whose (lowercased) characters is not alphabetic with code point at
least 1040; this excludes all Latin letters and digits, but admits
non-Cyrillic high-code-point scripts such as Armenian. -/
theorem claimC8_plausibility_rejects (w : Word) (c : Char)
    (hc : c ∈ w.map pyToLower)
    (h : ¬ (pyIsAlpha c = true ∧ 1040 ≤ c.toNat)) :
    looks_like_russian_word w = false := by
  rw [looks_like_russian_word]
  by_cases hlen : w.length < 2
  · rw [if_pos hlen]
  · have hall : (w.map pyToLower).all
        (fun c => pyIsAlpha c && decide (1040 ≤ c.toNat)) = false := by
      rw [List.all_eq_false]
      refine ⟨c, hc, ?_⟩
      intro habs
      obtain ⟨h1, h2⟩ := Bool.and_eq_true _ _ |>.mp habs
      exact h ⟨h1, of_decide_eq_true h2⟩
    simp only [if_neg hlen, hall, Bool.not_false, if_true]

/-- Witness for the amended C8: the span `aб` contains the Latin letter
`a` (code point 97 < 1040), so the predicate rejects it. -/
theorem claimC8_witness :
    'a' ∈ ("aб".toList).map pyToLower ∧
      ¬ (pyIsAlpha 'a' = true ∧ 1040 ≤ 'a'.toNat) ∧
      looks_like_russian_word ("aб".toList) = false := by
  have hc : 'a' ∈ ("aб".toList).map pyToLower := by decide
  have h : ¬ (pyIsAlpha 'a' = true ∧ 1040 ≤ 'a'.toNat) := by decide
  exact ⟨hc, h, claimC8_plausibility_rejects ("aб".toList) 'a' hc h⟩

lemma pyStrip_all_space (t : Word) (h : ∀ c ∈ t, pyIsSpace c = true) :
    pyStrip t = [] := by
  rw [pyStrip]
  have h1 : t.dropWhile pyIsSpace = [] :=
    List.dropWhile_eq_nil_iff.mpr (fun x hx => h x hx)
  rw [h1]
  rfl

/-- Claim C10: an input of length at least 2 consisting entirely of
whitespace normalizes to the empty text and yields no boundaries; the
segmenters and the selector likewise return no boundaries for empty
text. -/
theorem claimC10_whitespace_empty (lg : ℤ → ℚ) (freq : Lexicon) (t : Word)
    (h2 : 2 ≤ t.length) (hsp : ∀ c ∈ t, pyIsSpace c = true) :
    predict_space_positions lg freq t = [] ∧
      dynamic_programming_segmentation lg freq [] = [] ∧
      greedy_segmentation lg freq [] = [] ∧
      combine_methods lg freq [] = [] := by
  have hcomb : combine_methods lg freq [] = [] := by with_unfolding_all rfl
  refine ⟨?_, rfl, rfl, hcomb⟩
  rw [predict_space_positions]
  have hlen : ¬ t.length < 2 := by omega
  rw [if_neg hlen]
  have hnorm : normalizeText t = [] := by
    rw [normalizeText, pyStrip_all_space t hsp]
    rfl
  show dedupSort ((combine_methods lg freq (normalizeText t)).filter
      (fun p => decide (0 < p ∧ p < (normalizeText t).length))) = []
  rw [hnorm, hcomb]
  rfl

/-- Witness for C10 on the two-space input. -/
theorem claimC10_witness :
    (2 ≤ ([' ', ' '] : Word).length) ∧
      (predict_space_positions lgZero lexEmpty [' ', ' '] = [] ∧
        dynamic_programming_segmentation lgZero lexEmpty [] = [] ∧
        greedy_segmentation lgZero lexEmpty [] = [] ∧
        combine_methods lgZero lexEmpty [] = []) :=
  ⟨by decide, claimC10_whitespace_empty lgZero lexEmpty [' ', ' ']
    (by decide) (by decide)⟩
